import Mathlib

set_option maxRecDepth 8000

/-!
Verification of `list_deleted_open.py`: a shallow embedding of the script
into Lean, with theorems checking the natural-language specification.

Modelling conventions:
* The double-precision arithmetic of `parse_size`
  (`int(float(number) * factors[unit])`) is modelled at two levels.
  `parse_sizeF` is the faithful IEEE-754 binary64 model: the decimal
  literal is correctly rounded to a double (ties to even, subnormals,
  overflow to infinity), the multiplication by the power-of-two factor is
  an exact exponent shift except for overflow to infinity, and `int()`
  truncates toward zero — or raises an uncaught `OverflowError` on
  infinity.  `parse_size` is the exact-rational abstraction of the same
  function, which agrees with `parse_sizeF` whenever the double
  computation is exact (in particular on every threshold string the
  presenter-level theorems use, such as `"500G"`), but ignores the
  rounding of literals with more than 53 significant bits and the
  overflow crash; the claims about the numeric contract of `parse_size`
  are settled against `parse_sizeF`.
* Python `float` arithmetic inside `sizeof_fmt` is modelled by exact
  arithmetic on the pair (integer, number of divisions); every value the
  loop manipulates is the dyadic rational `n / 1024 ^ k`, which a double
  represents exactly for all sizes below `2 ^ 53` bytes.
* The `argparse.ArgumentTypeError` raised by `parse_size` is `none` in
  the abstraction and `SizeResult.invalid` in the faithful model
  (the spec's `InvalidSizeFormat`).
* Whitespace is the ASCII whitespace set used by `str.split()` / `str.strip()`
  and by the regex class `\s` (space, tab, newline, vertical tab, form feed,
  carriage return); CPython additionally accepts Unicode whitespace in the
  same positions, which this model does not enumerate.
-/

namespace ListDeletedOpen

/-- ASCII whitespace, as recognised by Python `str.split()` / `str.strip()`
and the regex class `\s`. -/
def isPySpace (c : Char) : Bool :=
  c = ' ' || c = '\t' || c = '\n' || c = '\x0b' || c = '\x0c' || c = '\r'

/-- Strip leading and trailing whitespace: Python `str.strip()`. -/
def stripPy (l : List Char) : List Char :=
  ((l.dropWhile isPySpace).reverse.dropWhile isPySpace).reverse

/-- Test `hasPre p h`: true when `p` is an initial segment of `h`. -/
def hasPre : List Char → List Char → Bool
  | [], _ => true
  | _ :: _, [] => false
  | c :: p, d :: h => c == d && hasPre p h

/-- Python substring test `pat in hay`. -/
def hasSub : List Char → List Char → Bool
  | pat, [] => pat.isEmpty
  | pat, c :: t => hasPre pat (c :: t) || hasSub pat t

/-- Numeric value of an ASCII digit. -/
def digitVal (c : Char) : ℕ := c.toNat - ('0').toNat

/-- Value of a string of ASCII digits, most significant first. -/
def digitsToNat (l : List Char) : ℕ := l.foldl (fun a c => 10 * a + digitVal c) 0

/-- Helper for `pyIntDigits`: after the first digit, Python `int()` accepts
further digits with single underscores strictly between digits. -/
def pyIntRest : List Char → Bool
  | [] => true
  | '_' :: [] => false
  | '_' :: c :: r => c.isDigit && pyIntRest r
  | c :: r => c.isDigit && pyIntRest r

/-- The digit part accepted by Python `int()`: nonempty, digits, with
single underscores allowed only between digits. -/
def pyIntDigits : List Char → Bool
  | [] => false
  | c :: r => c.isDigit && pyIntRest r

/-- Python `int(str)`: optional surrounding whitespace, optional sign,
then digits (with underscore separators).  `none` models `ValueError`. -/
def pyInt (tok : List Char) : Option ℤ :=
  let t := stripPy tok
  let sd : ℤ × List Char :=
    match t with
    | '+' :: r => (1, r)
    | '-' :: r => (-1, r)
    | _ => (1, t)
  if pyIntDigits sd.2 then
    some (sd.1 * (digitsToNat (sd.2.filter (fun c => c != '_')) : ℤ))
  else
    none

/-- Python `str.split(None, maxsplit)`: split on runs of whitespace, at most
`max` splits; after the last split the remainder (leading whitespace removed)
is kept verbatim, and a remainder that is empty after whitespace removal
produces no element. -/
def splitNone : ℕ → List Char → List (List Char)
  | max, s =>
    let t := s.dropWhile isPySpace
    match t with
    | [] => []
    | _ :: _ =>
      match max with
      | 0 => [t]
      | m + 1 =>
        let tok := t.takeWhile (fun c => !isPySpace c)
        let rest := t.dropWhile (fun c => !isPySpace c)
        tok :: splitNone m rest

/-! ## The size-string converter (`parse_size`, lines 33-56 of the script)

The decimal literal matched by the regex group `([0-9]+(\.[0-9]+)?)` is kept
as an exact pair: the mantissa `m` (all digits with the dot removed) and the
scale `sc` (number of fraction digits), so that the numeric value of the
literal, `float(number)` in the script, is exactly `m / 10 ^ sc`.  Keeping
the pair rather than a `ℚ` makes every definition kernel-executable; the
rational value is recovered by `numVal` in the theorems. -/

/-- The unit letters of the regex class `[KMGTPEZY]`. -/
def isUnitChar (c : Char) : Bool :=
  (['K', 'M', 'G', 'T', 'P', 'E', 'Z', 'Y']).contains c

/-- Exact rational value of a scanned decimal literal with mantissa `m`
and `sc` fraction digits. -/
def numVal (m sc : ℕ) : ℚ := (m : ℚ) / 10 ^ sc

/-- Scan the number group of the regex
`([0-9]+(\.[0-9]+)?)`: one or more digits, optionally a dot followed by one
or more digits.  Returns mantissa, scale and the unscanned remainder.
The regex is deterministic on this input: any backtracked shorter match
leaves a character (digit or dot) that no later regex element can absorb. -/
def sizeNumScan (l : List Char) : Option ((ℕ × ℕ) × List Char) :=
  if (l.takeWhile Char.isDigit).isEmpty then none
  else
    match l.dropWhile Char.isDigit with
    | '.' :: r2 =>
      if (r2.takeWhile Char.isDigit).isEmpty then none
      else
        some ((digitsToNat (l.takeWhile Char.isDigit ++ r2.takeWhile Char.isDigit),
               (r2.takeWhile Char.isDigit).length),
              r2.dropWhile Char.isDigit)
    | r1 => some ((digitsToNat (l.takeWhile Char.isDigit), 0), r1)

/-- The `B?$` end of the regex: what remains after the optional unit must
be an optional `B` and then the end of the string. -/
def sizeBEnd (r : List Char) : Bool :=
  r.isEmpty || r == ['B']

/-- The tail of the regex after the number group:
`\s*([KMGTPEZY])?B?$` — optional whitespace, then an optional unit letter,
then `sizeBEnd`.  Returns the unit group on success. -/
def sizeTail (r1 : List Char) : Option (Option Char) :=
  match r1.dropWhile isPySpace with
  | [] => some none
  | c :: r =>
    if isUnitChar c then
      if sizeBEnd r then some (some c) else none
    else
      if sizeBEnd (c :: r) then some none else none

/-- The full regex match
`^([0-9]+(\.[0-9]+)?)\s*([KMGTPEZY])?B?$` applied to
`s.strip().upper()`, returning the decimal literal (mantissa, scale) and
the optional unit letter of the two regex groups. -/
def sizeScan (s : String) : Option ((ℕ × ℕ) × Option Char) :=
  match sizeNumScan ((stripPy s.toList).map Char.toUpper) with
  | none => none
  | some (n, r1) => (sizeTail r1).map (fun uc => (n, uc))

/-- The `factors` dictionary of `parse_size`: unit letter to multiplier.
A letter outside the regex class never reaches the lookup; it is mapped
to `0` here to keep the function total. -/
def factors : Option Char → ℕ
  | none => 1
  | some 'K' => 1024 ^ 1
  | some 'M' => 1024 ^ 2
  | some 'G' => 1024 ^ 3
  | some 'T' => 1024 ^ 4
  | some 'P' => 1024 ^ 5
  | some 'E' => 1024 ^ 6
  | some 'Z' => 1024 ^ 7
  | some 'Y' => 1024 ^ 8
  | some _ => 0

/-- Function `parse_size` (lines 33-56), exact-arithmetic abstraction:
convert a human-size string into an integer number of bytes; `none` models
the raised `ArgumentTypeError` (the spec's `InvalidSizeFormat`).  The
script computes `int(float(number) * factors[unit])`; on the exact value
`m / 10 ^ sc` of the literal that truncation is the natural floor division
`(m * factor) / 10 ^ sc`.  This abstraction drops two behaviours of the
double-precision original — the rounding of literals needing more than 53
significant bits, and the overflow of `float()` to infinity (where the
program crashes on `int(inf)`) — which the faithful model `parse_sizeF`
below restores; the two agree whenever the double computation is exact,
in particular on the threshold strings used by the presenter-level
theorems. -/
def parse_size (s : String) : Option ℤ :=
  (sizeScan s).map (fun p => (((p.1.1 * factors p.2) / 10 ^ p.1.2 : ℕ) : ℤ))

/-! ## The size formatter (`sizeof_fmt`, lines 26-31 of the script)

The loop variable `num` starts at the integer byte count `n` and is divided
by `1024.0` once per iteration; after `k` iterations its exact value is
`n / 1024 ^ k`, a dyadic rational that an IEEE double represents exactly for
all realistic sizes.  The loop state is therefore carried as the pair
`(n, k)`, and the guard `abs(num) < 1024.0` is the exact integer test
`|n| < 1024 ^ (k + 1)`. -/

/-- The unit prefixes iterated over by `sizeof_fmt`. -/
def fmtUnits : List String := ["", "K", "M", "G", "T", "P", "E", "Z", "Y"]

/-- The `for unit in [...]` loop of `sizeof_fmt`: starting from `num = n`
after `k` divisions, return the number of divisions performed and the unit
chosen.  Falling off the list is the post-loop `return` with unit `"Y"`. -/
def sizeofLoop (n : ℤ) : ℕ → List String → ℕ × String
  | k, [] => (k, "Y")
  | k, u :: rest => if |n| < 1024 ^ (k + 1) then (k, u) else sizeofLoop n (k + 1) rest

/-- Round-half-even (the rounding of CPython float formatting) of the
fraction `a / b`, for natural `a` and positive `b`.  Exact ties pick the
even neighbour. -/
def rheN (a b : ℕ) : ℕ :=
  let q := a / b
  let r := a % b
  if 2 * r < b then q
  else if b < 2 * r then q + 1
  else if q % 2 = 0 then q else q + 1

/-- CPython `f-string` formatting `.1f` of the nonnegative exact value
`m / 1024 ^ k`: round half-to-even at one decimal digit and print
`whole.tenth`. -/
def fmt1N (m : ℕ) (k : ℕ) : String :=
  let t := rheN (10 * m) (1024 ^ k)
  Nat.repr (t / 10) ++ "." ++ Nat.repr (t % 10)

/-- Signed `.1f` formatting of the exact value `n / 1024 ^ k` for integer `n`:
a sign followed by the formatted magnitude. -/
def fmt1 (n : ℤ) (k : ℕ) : String :=
  if n < 0 then "-" ++ fmt1N n.natAbs k else fmt1N n.toNat k

/-- Function `sizeof_fmt` (lines 26-31), at its call site `sizeof_fmt(num)` with the
default `suffix="B"`: pick the unit by repeated division by 1024, then
render `num` to one decimal digit followed by the unit and the suffix. -/
def sizeof_fmt (n : ℤ) : String :=
  let st := sizeofLoop n 0 fmtUnits
  fmt1 n st.1 ++ st.2 ++ "B"

/-! ## The record parser/filter (`parse_lsof`, lines 70-100 of the script) -/

/-- The marker string `"(deleted)"` looked up inside the name field. -/
def deletedMarker : List Char := ("(deleted)").toList

/-- One parsed lsof record (the dict built at lines 88-99). -/
structure Entry where
  size_b : ℤ
  command : String
  pid : String
  user : String
  fd : String
  ftype : String
  device : String
  nlink : ℤ
  node : String
  name : String
  deriving DecidableEq

/-- The ten whitespace-delimited fields of one lsof line
(`line.split(None, 9)` unpacked at line 79), before numeric conversion. -/
structure RawRow where
  cmd : List Char
  pid : List Char
  user : List Char
  fd : List Char
  ftype : List Char
  dev : List Char
  size_s : List Char
  nlink_s : List Char
  node : List Char
  name : List Char
  deriving DecidableEq

/-- Split one line into exactly ten fields; `none` models the
`len(parts) < 10: continue` skip at lines 77-78. -/
def readRow (line : String) : Option RawRow :=
  match splitNone 9 line.toList with
  | [c, p, u, f, t, d, sz, nl, no, nm] => some ⟨c, p, u, f, t, d, sz, nl, no, nm⟩
  | _ => none

/-- Numeric conversion of the size and link-count fields
(`int(size_s)`, `int(nlink_s)` at lines 80-84); `none` models the
`except ValueError: continue` skip. -/
def rowEntry (line : String) : Option Entry :=
  (readRow line).bind fun r =>
    match pyInt r.size_s, pyInt r.nlink_s with
    | some sb, some nl =>
      some ⟨sb, String.mk r.cmd, String.mk r.pid, String.mk r.user, String.mk r.fd,
            String.mk r.ftype, String.mk r.dev, nl, String.mk r.node, String.mk r.name⟩
    | _, _ => none

/-- Parse one data line, applying the skip condition of line 86:
`if nlink != 0 or "(deleted)" not in name or size_b < min_bytes: continue`. -/
def parseLine (min_bytes : ℤ) (line : String) : Option Entry :=
  match rowEntry line with
  | none => none
  | some e =>
    if e.nlink ≠ 0 ∨ hasSub deletedMarker e.name.toList = false ∨ e.size_b < min_bytes
    then none
    else some e

/-- The `for line in lines[1:]` loop of `parse_lsof`, accumulating the
entries that survive every skip. -/
def lsofLoop (min_bytes : ℤ) : List String → List Entry
  | [] => []
  | line :: rest =>
    match parseLine min_bytes line with
    | some e => e :: lsofLoop min_bytes rest
    | none => lsofLoop min_bytes rest

/-- Function `parse_lsof` (lines 70-100): guard for a missing header
(`len(lines) < 2`), then process every line after the header. -/
def parse_lsof (lines : List String) (min_bytes : ℤ) : List Entry :=
  if lines.length < 2 then [] else lsofLoop min_bytes (lines.drop 1)

/-! ## The presenter (`main`, lines 118-158 of the script) -/

/-- Insert an entry into a list that is already sorted by size descending,
after every strictly larger element and before every other: the unique
stable position.  `entries.sort(key=..., reverse=True)` at line 137 is
CPython stable sort with reversed comparisons, i.e. exactly the stable
descending sort computed by repeated stable insertion. -/
def insDesc (e : Entry) : List Entry → List Entry
  | [] => [e]
  | x :: xs => if x.size_b ≤ e.size_b then e :: x :: xs else x :: insDesc e xs

/-- Stable sort by `size_b` descending (line 137). -/
def sortEntries : List Entry → List Entry
  | [] => []
  | x :: xs => insDesc x (sortEntries xs)

/-- The header row printed at lines 140-141. -/
def hdrLine : String :=
  String.intercalate "\t"
    ["SIZE", "COMMAND", "PID", "USER", "FD", "TYPE", "DEVICE", "NLINK", "NODE", "NAME"]

/-- One tab-joined data row (lines 144-156), with the size rendered by
`sizeof_fmt`. -/
def renderRow (e : Entry) : String :=
  String.intercalate "\t"
    [sizeof_fmt e.size_b, e.command, e.pid, e.user, e.fd, e.ftype, e.device,
     toString e.nlink, e.node, e.name]

/-- Observable outcome of one run: data stream, error stream, exit code. -/
structure RunResult where
  stdout : List String
  errOut : List String
  exitCode : ℕ
  deriving DecidableEq

/-- The informational message of line 133. -/
def emptyMsg (path minsize : String) : String :=
  "No deleted-but-open files ≥ " ++ minsize ++ " found under \x27" ++ path ++ "\x27."

/-- The error message raised by `parse_size` (line 41), printed at line 126. -/
def invalidMsg (minsize : String) : String :=
  "Invalid size value: \x27" ++ String.mk ((stripPy minsize.toList).map Char.toUpper) ++ "\x27"

/-- Function `main` (lines 118-158) after the external `lsof` invocation, as a
function of the captured lsof output lines and the two relevant arguments.
The advisory non-root warning (line 120) and the `--process` detail mode
(lines 157-158) are not modelled: no claim depends on them, and the
warning only ever adds an extra error-stream line before the ones modelled
here. -/
def mainRun (lsofLines : List String) (path minsize : String) : RunResult :=
  match parse_size minsize with
  | none => ⟨[], [invalidMsg minsize], 1⟩
  | some min_bytes =>
    match parse_lsof lsofLines min_bytes with
    | [] => ⟨[], [emptyMsg path minsize], 0⟩
    | e :: es => ⟨hdrLine :: (sortEntries (e :: es)).map renderRow, [], 0⟩

/-! ## Fixed concrete inputs used by witnesses -/

/-- A header line in the shape lsof prints. -/
def hdr0 : String := "COMMAND  PID USER   FD   TYPE DEVICE SIZE/OFF NLINK NODE NAME"

/-- A well-formed qualifying row: link count 0, deleted marker present,
size `600 * 1024 ^ 3` bytes. -/
def row0 : String :=
  "java    1234 root    5u   REG  8,1 644245094400 0 131072 /tmp/big.log (deleted)"

/-- A second well-formed qualifying row with a different, larger size. -/
def row1 : String :=
  "pg      77 postgres 3u  REG  8,2 700000000000 0 9999 /var/tmp/wal.seg (deleted)"

/-- A malformed data line in the sense of the specification: fewer than ten
whitespace-delimited fields, or a size or link-count field that is not an
integer. -/
def malformedRow (line : String) : Prop :=
  (splitNone 9 line.toList).length < 10 ∨
  (∃ r, readRow line = some r ∧ (pyInt r.size_s = none ∨ pyInt r.nlink_s = none))

/-- Descending size order between entries. -/
def sizeGE (a b : Entry) : Prop := b.size_b ≤ a.size_b

/-- The SIZE column of a rendered row: the text before the first tab. -/
def firstField (s : String) : String :=
  String.mk (s.toList.takeWhile (fun c => c != '\t'))

/-- Modelled from the claim text of C3: an optional decimal number,
followed by an optional unit letter and an optional trailing `B`,
case-insensitive, surrounding whitespace stripped.  (This recogniser is
the claim side of the comparison; the code side is `parse_size`.) -/
def claimSizeGrammar (s : String) : Bool :=
  let u := (stripPy s.toList).map Char.toUpper
  let r1 :=
    match sizeNumScan u with
    | some p => p.2
    | none => u
  let r2 :=
    match r1 with
    | c :: r => if isUnitChar c then r else c :: r
    | [] => []
  let r3 :=
    match r2 with
    | 'B' :: r => r
    | r => r
  r3.isEmpty

/-- The grammar the code actually accepts: a mandatory decimal number
(digits, optionally a dot and at least one more digit), optional
whitespace, an optional unit letter, an optional trailing `B` —
case-insensitively, with surrounding whitespace stripped. -/
def SizeGrammar (s : String) : Prop :=
  ∃ d1 fr w un bs : List Char,
    (stripPy s.toList).map Char.toUpper = d1 ++ fr ++ w ++ un ++ bs ∧
    d1 ≠ [] ∧ (∀ c ∈ d1, c.isDigit = true) ∧
    (fr = [] ∨ ∃ d2, fr = '.' :: d2 ∧ d2 ≠ [] ∧ (∀ c ∈ d2, c.isDigit = true)) ∧
    (∀ c ∈ w, isPySpace c = true) ∧
    (un = [] ∨ ∃ c, un = [c] ∧ isUnitChar c = true) ∧
    (bs = [] ∨ bs = ['B'])

/-! ## The IEEE-754 binary64 model of the `parse_size` arithmetic

The script computes `int(float(number) * factors[unit])` in double
precision.  The definitions below model that arithmetic bit-exactly:

* `decFloat m sc` is CPython `float()` applied to the decimal literal with
  mantissa `m` and `sc` fraction digits: the exact value `m / 10 ^ sc` is
  rounded to the nearest binary64 (ties to even).  The result is a pair
  `(m2, e)` whose value is `m2 * 2 ^ e`, with `m2 < 2 ^ 53` and
  `e ∈ [-1074, 971]` (subnormals are rounded at the fixed point `2 ^ -1074`,
  underflow gives `(0, _)`); `none` is overflow to infinity, which CPython
  string conversion produces without raising.
* The multiplication by `factors[unit] = 2 ^ factorExp unit` (the integer
  is coerced to an exactly representable float) is an exact shift of the
  exponent in IEEE arithmetic unless the product reaches `2 ^ 1024`, in
  which case it rounds to infinity; `prodFloat` models both.
* `int(x)` truncates a finite double toward zero (`truncDyadic`);
  `int(inf)` raises `OverflowError`, which nothing in the script catches,
  so the program crashes — `SizeResult.overflow` below.

`parse_sizeF` is the resulting faithful model of the whole function:
`.ok v` is a normal return, `.invalid` the raised `ArgumentTypeError`
(the spec's `InvalidSizeFormat`), `.overflow` the uncaught
`OverflowError`. -/

/-- Outcome of `parse_size` in the script: a returned byte count, the
`ArgumentTypeError` raised on a regex mismatch, or the uncaught
`OverflowError` from `int(inf)`. -/
inductive SizeResult where
  | ok (v : ℤ)
  | invalid
  | overflow
  deriving DecidableEq

/-- Base-two exponent of `factors`: `factors u = 2 ^ factorExp u` for every
reachable unit. -/
def factorExp : Option Char → ℕ
  | none => 0
  | some 'K' => 10
  | some 'M' => 20
  | some 'G' => 30
  | some 'T' => 40
  | some 'P' => 50
  | some 'E' => 60
  | some 'Z' => 70
  | some 'Y' => 80
  | some _ => 0

/-- Fuelled floor of the base-two logarithm (`fuel ≥ log2 n` suffices; the
callers pass `n` itself as fuel). -/
def log2F : ℕ → ℕ → ℕ
  | 0, _ => 0
  | fuel + 1, n => if n ≤ 1 then 0 else log2F fuel (n / 2) + 1

/-- Comparison `c * 2 ^ e ≤ m / b` without leaving `ℕ`. -/
def scaledLe (c : ℕ) (e : ℤ) (m b : ℕ) : Bool :=
  if 0 ≤ e then c * 2 ^ e.toNat * b ≤ m else c * b ≤ m * 2 ^ (-e).toNat

/-- Adjust an exponent guess until `2 ^ 52 * 2 ^ e ≤ m / b < 2 ^ 53 * 2 ^ e`.
The initial guess from the integer logarithms is off by at most one, so a
small fuel suffices. -/
def binadeFix : ℕ → ℤ → ℕ → ℕ → ℤ
  | 0, e, _, _ => e
  | fuel + 1, e, m, b =>
    if !(scaledLe (2 ^ 52) e m b) then binadeFix fuel (e - 1) m b
    else if scaledLe (2 ^ 53) e m b then binadeFix fuel (e + 1) m b
    else e

/-- Correctly rounded conversion of `m / 10 ^ sc` to a binary64 value
`m2 * 2 ^ e` (round to nearest, ties to even; subnormals at `2 ^ -1074`;
`none` is overflow to infinity): CPython `float()` on the scanned decimal
literal. -/
def decFloat (m sc : ℕ) : Option (ℕ × ℤ) :=
  if m = 0 then some (0, 0)
  else
    let b := 10 ^ sc
    let e0 : ℤ := (log2F m m : ℤ) - (log2F b b : ℤ) - 52
    let e1 := binadeFix 3 e0 m b
    if e1 < -1074 then
      some (rheN (m * 2 ^ 1074) b, -1074)
    else
      let m2 := if 0 ≤ e1 then rheN m (b * 2 ^ e1.toNat) else rheN (m * 2 ^ (-e1).toNat) b
      let m3e : ℕ × ℤ := if m2 = 2 ^ 53 then (2 ^ 52, e1 + 1) else (m2, e1)
      if 971 < m3e.2 then none else some m3e

/-- IEEE product of the converted literal with `factors[unit] = 2 ^ p`:
an exact exponent shift, except that a product reaching `2 ^ 1024` rounds
to infinity (`none`). -/
def prodFloat (m sc p : ℕ) : Option (ℕ × ℤ) :=
  match decFloat m sc with
  | none => none
  | some (m2, e) =>
    if m2 = 0 then some (0, 0)
    else if 0 ≤ e + (p : ℤ) ∧ 2 ^ 1024 ≤ m2 * 2 ^ (e + (p : ℤ)).toNat then none
    else some (m2, e + (p : ℤ))

/-- Python `int(x)` on the nonnegative finite double `m2 * 2 ^ e`:
truncation toward zero. -/
def truncDyadic (m2 : ℕ) (e : ℤ) : ℤ :=
  if 0 ≤ e then ((m2 * 2 ^ e.toNat : ℕ) : ℤ) else ((m2 / 2 ^ (-e).toNat : ℕ) : ℤ)

/-- Exact rational value of the double `m2 * 2 ^ e` (statements only). -/
def dyVal (m2 : ℕ) (e : ℤ) : ℚ := (m2 : ℚ) * 2 ^ e

/-- Faithful model of `parse_size` (lines 33-56) including the
double-precision arithmetic: regex scan, `float()` conversion,
multiplication by the unit factor, `int()` truncation — with the
`ArgumentTypeError` and uncaught-`OverflowError` outcomes. -/
def parse_sizeF (s : String) : SizeResult :=
  match sizeScan s with
  | none => .invalid
  | some ((m, sc), u) =>
    match prodFloat m sc (factorExp u) with
    | none => .overflow
    | some (m2, e) => .ok (truncDyadic m2 e)

/-- An in-grammar all-digit literal of 401 digits, far above the binary64
overflow threshold of about `1.8e308`. -/
def bigLit : String := String.mk ('1' :: List.replicate 400 '0')

/-! ## Concrete evaluations

The `decFloat` values below are cross-checked against the hex
representations CPython reports for the same literals
(for instance `float("0.1") = 0x1.999999999999ap-4`, i.e.
`7205759403792794 * 2 ^ -56`). -/

example : parse_sizeF "500G" = .ok 536870912000 := by decide
example : parse_sizeF "1K" = .ok 1024 := by decide
example : parse_sizeF "2.5G" = .ok 2684354560 := by decide
example : parse_sizeF "123" = .ok 123 := by decide
example : parse_sizeF "1.5" = .ok 1 := by decide
example : parse_sizeF "0.1K" = .ok 102 := by decide
example : parse_sizeF "abc" = .invalid := by decide
example : parse_sizeF "K" = .invalid := by decide
example : parse_sizeF "9007199254740993" = .ok 9007199254740992 := by decide
example : parse_sizeF "0.99999999999999995" = .ok 1 := by decide
example : parse_sizeF (String.mk ('0' :: '.' :: (List.replicate 330 '0' ++ ['1']))) =
    .ok 0 := by decide
example : decFloat 1 1 = some (7205759403792794, -56) := by decide
example : decFloat 25 1 = some (5629499534213120, -51) := by decide
example : decFloat 123 0 = some (8655355533852672, -46) := by decide

example : parse_size "1K" = some 1024 := by decide
example : parse_size "2.5G" = some 2684354560 := by decide
example : parse_size "123" = some 123 := by decide
example : parse_size "abc" = none := by decide
example : parse_size "10X" = none := by decide
example : parse_size "" = none := by decide
example : parse_size " 2.5 gb " = some 2684354560 := by decide
example : parse_size "0.1K" = some 102 := by decide
example : parse_size "1.5" = some 1 := by decide
example : parse_size "5 B" = some 5 := by decide
example : parse_size "K" = none := by decide
example : parse_size "1.K" = none := by decide
example : parse_size "500G" = some 536870912000 := by decide
example : sizeof_fmt 0 = "0.0B" := by decide
example : sizeof_fmt 644245094400 = "600.0GB" := by decide
example : sizeof_fmt 1048525 = "1024.0KB" := by decide
example : sizeof_fmt 1048524 = "1023.9KB" := by decide
example : sizeof_fmt 1536 = "1.5KB" := by decide

/-! ## Characterisation of the parser/filter -/

/-- Lemma: `parseLine` in staged form: structural parse first, then the inclusion
predicate of the specification, stated positively. -/
lemma parseLine_eq (mb : ℤ) (l : String) :
    parseLine mb l = (rowEntry l).bind (fun e =>
      if e.nlink = 0 ∧ hasSub deletedMarker e.name.toList = true ∧ mb ≤ e.size_b
      then some e else none) := by
  unfold parseLine
  cases h : rowEntry l with
  | none => rfl
  | some e =>
    simp only [Option.some_bind]
    have hiff : (e.nlink ≠ 0 ∨ hasSub deletedMarker e.name.toList = false ∨ e.size_b < mb)
        ↔ ¬(e.nlink = 0 ∧ hasSub deletedMarker e.name.toList = true ∧ mb ≤ e.size_b) := by
      rw [not_and_or, not_and_or]
      apply or_congr Iff.rfl
      apply or_congr
      · exact iff_of_eq (Bool.not_eq_true _).symm
      · exact (not_le).symm
    rw [if_congr hiff rfl rfl]
    by_cases hP : e.nlink = 0 ∧ hasSub deletedMarker e.name.toList = true ∧ mb ≤ e.size_b
    · rw [if_neg (not_not_intro hP), if_pos hP]
    · rw [if_pos hP, if_neg hP]

/-- The accumulation loop is `filterMap` over the data lines. -/
lemma lsofLoop_eq (mb : ℤ) (ls : List String) :
    lsofLoop mb ls = ls.filterMap (parseLine mb) := by
  induction ls with
  | nil => rfl
  | cons a t ih =>
    simp only [lsofLoop, List.filterMap_cons]
    cases h : parseLine mb a <;> simp [h, ih]

/-- Lemma: `parse_lsof` retains exactly the well-formed rows satisfying the
three-part inclusion predicate, in listing order. -/
lemma parse_lsof_eq_filterMap (lines : List String) (mb : ℤ) :
    parse_lsof lines mb = (lines.drop 1).filterMap (fun l =>
      (rowEntry l).bind (fun e =>
        if e.nlink = 0 ∧ hasSub deletedMarker e.name.toList = true ∧ mb ≤ e.size_b
        then some e else none)) := by
  unfold parse_lsof
  rw [lsofLoop_eq]
  rw [show parseLine mb = fun l =>
        (rowEntry l).bind (fun e =>
          if e.nlink = 0 ∧ hasSub deletedMarker e.name.toList = true ∧ mb ≤ e.size_b
          then some e else none) from funext (parseLine_eq mb)]
  split
  · rename_i hlen
    rcases lines with _ | ⟨a, _ | ⟨b, t⟩⟩
    · rfl
    · rfl
    · exfalso
      simp only [List.length_cons] at hlen
      omega
  · rfl

/-- C1.  For every input listing (header plus data lines) and every
threshold, the parser/filter retains exactly those rows whose link-count
field equals 0, whose name field contains the `"(deleted)"` marker and
whose size field is at least the threshold: the result is the in-order
`filterMap` of the data lines through the structural row parse followed by
exactly that three-part predicate, so every row failing structural parse
or any one of the three conditions is excluded and no other row is. -/
theorem c1_filter_retains_exactly (lines : List String) (min_bytes : ℤ) :
    parse_lsof lines min_bytes = (lines.drop 1).filterMap (fun l =>
      (rowEntry l).bind (fun e =>
        if e.nlink = 0 ∧ hasSub deletedMarker e.name.toList = true ∧ min_bytes ≤ e.size_b
        then some e else none)) :=
  parse_lsof_eq_filterMap lines min_bytes

/-! ## Malformed rows are skipped without aborting (C6) -/

/-- Fewer than ten fields means the structural parse fails. -/
lemma readRow_none_of_short (line : String)
    (h : (splitNone 9 line.toList).length < 10) : readRow line = none := by
  unfold readRow
  generalize hs : splitNone 9 line.toList = ll at h ⊢
  rcases ll with _ | ⟨a1, ll⟩
  · rfl
  rcases ll with _ | ⟨a2, ll⟩
  · rfl
  rcases ll with _ | ⟨a3, ll⟩
  · rfl
  rcases ll with _ | ⟨a4, ll⟩
  · rfl
  rcases ll with _ | ⟨a5, ll⟩
  · rfl
  rcases ll with _ | ⟨a6, ll⟩
  · rfl
  rcases ll with _ | ⟨a7, ll⟩
  · rfl
  rcases ll with _ | ⟨a8, ll⟩
  · rfl
  rcases ll with _ | ⟨a9, ll⟩
  · rfl
  rcases ll with _ | ⟨a10, ll⟩
  · rfl
  rcases ll with _ | ⟨a11, ll⟩
  · exfalso
    simp only [List.length_cons, List.length_nil] at h
    omega
  · rfl

/-- A malformed line produces no entry. -/
lemma rowEntry_none_of_malformed (line : String) (h : malformedRow line) :
    rowEntry line = none := by
  rcases h with h | ⟨r, hr, hbad⟩
  · unfold rowEntry
    rw [readRow_none_of_short line h]
    rfl
  · unfold rowEntry
    rw [hr]
    simp only [Option.some_bind]
    rcases hbad with hb | hb
    · rw [hb]
    · rw [hb]
      cases pyInt r.size_s <;> rfl

/-- C6.  A data line with fewer than ten whitespace-delimited fields, or a
non-integer size or link-count field, is silently skipped: removing it from
the listing leaves the parsed result unchanged, so all preceding and
following lines are still processed and a malformed line never aborts the
batch. -/
theorem c6_malformed_row_skipped (hdr bad : String) (pre post : List String)
    (min_bytes : ℤ) (h : malformedRow bad) :
    parse_lsof (hdr :: (pre ++ bad :: post)) min_bytes =
      parse_lsof (hdr :: (pre ++ post)) min_bytes := by
  rw [parse_lsof_eq_filterMap, parse_lsof_eq_filterMap]
  simp only [List.drop_succ_cons, List.drop_zero, List.filterMap_append,
    List.filterMap_cons, rowEntry_none_of_malformed bad h, Option.none_bind]

/-- Witness for C6: a concrete listing where dropping the short middle line
leaves the (nonempty) result unchanged. -/
theorem c6_witness :
    parse_lsof (hdr0 :: (["short line"] ++ [row0])) 536870912000 =
      parse_lsof (hdr0 :: ([] ++ [row0])) 536870912000 ∧
    parse_lsof (hdr0 :: ([] ++ [row0])) 536870912000 ≠ [] := by
  constructor
  · exact c6_malformed_row_skipped hdr0 "short line" [] [row0] 536870912000
      (Or.inl (by decide))
  · decide

/-! ## The sort is descending and stable (C4) -/

/-- Inserting permutes. -/
lemma insDesc_perm (e : Entry) (l : List Entry) : List.Perm (insDesc e l) (e :: l) := by
  induction l with
  | nil => exact List.Perm.refl _
  | cons x xs ih =>
    unfold insDesc
    split
    · exact List.Perm.refl _
    · exact (ih.cons x).trans (List.Perm.swap e x xs)

/-- Sorting permutes. -/
lemma sortEntries_perm (l : List Entry) : List.Perm (sortEntries l) l := by
  induction l with
  | nil => exact List.Perm.refl _
  | cons x xs ih => exact (insDesc_perm x (sortEntries xs)).trans (ih.cons x)

/-- Inserting into a descending list keeps it descending. -/
lemma insDesc_pairwise (e : Entry) (l : List Entry)
    (h : List.Pairwise sizeGE l) : List.Pairwise sizeGE (insDesc e l) := by
  induction l with
  | nil => exact List.pairwise_singleton _ _
  | cons x xs ih =>
    rw [List.pairwise_cons] at h
    unfold insDesc
    split
    · rename_i hle
      rw [List.pairwise_cons]
      refine ⟨?_, List.pairwise_cons.mpr h⟩
      intro b hb
      rcases List.mem_cons.mp hb with hb | hb
      · subst hb
        exact hle
      · exact le_trans (h.1 b hb) hle
    · rename_i hgt
      rw [List.pairwise_cons]
      refine ⟨?_, ih h.2⟩
      intro b hb
      rcases List.mem_cons.mp ((insDesc_perm e xs).mem_iff.mp hb) with hb | hb
      · subst hb
        exact le_of_not_le hgt
      · exact h.1 b hb

/-- The sorted list is descending by size. -/
lemma sortEntries_pairwise (l : List Entry) :
    List.Pairwise sizeGE (sortEntries l) := by
  induction l with
  | nil => exact List.Pairwise.nil
  | cons x xs ih => exact insDesc_pairwise x (sortEntries xs) ih

/-- Insertion does not disturb the subsequence of any fixed size class:
every element jumped over is strictly larger. -/
lemma filter_insDesc (v : ℤ) (e : Entry) (l : List Entry) :
    (insDesc e l).filter (fun x => x.size_b == v) =
      if e.size_b == v then e :: l.filter (fun x => x.size_b == v)
      else l.filter (fun x => x.size_b == v) := by
  induction l with
  | nil =>
    simp only [insDesc, List.filter_cons, List.filter_nil]
  | cons x xs ih =>
    unfold insDesc
    split
    · rw [List.filter_cons]
    · rename_i hgt
      have hlt : e.size_b < x.size_b := lt_of_not_le hgt
      rw [List.filter_cons, List.filter_cons, ih]
      by_cases hev : e.size_b = v <;> by_cases hxv : x.size_b = v
      · exfalso
        omega
      · simp [beq_iff_eq, hev, hxv]
      · simp [beq_iff_eq, hev, hxv]
      · simp [beq_iff_eq, hev, hxv]

/-- Stability: the sorted list lists each size class in original order. -/
lemma sortEntries_filter (v : ℤ) (l : List Entry) :
    (sortEntries l).filter (fun x => x.size_b == v) =
      l.filter (fun x => x.size_b == v) := by
  induction l with
  | nil => rfl
  | cons x xs ih =>
    show (insDesc x (sortEntries xs)).filter (fun x => x.size_b == v) = _
    rw [filter_insDesc, List.filter_cons, ih]

/-- C4.  The rows the presenter renders are the retained records sorted by
size descending; ties keep the original listing order (the subsequence of
any fixed size equals the corresponding subsequence of the unsorted
record list), and when all retained sizes are pairwise distinct the order
is strictly descending. -/
theorem c4_sort_desc_stable (lines : List String) (min_bytes v : ℤ) :
    List.Pairwise sizeGE (sortEntries (parse_lsof lines min_bytes)) ∧
    (sortEntries (parse_lsof lines min_bytes)).filter (fun e => e.size_b == v) =
      (parse_lsof lines min_bytes).filter (fun e => e.size_b == v) ∧
    (List.Pairwise (fun a b => a.size_b ≠ b.size_b) (parse_lsof lines min_bytes) →
      List.Pairwise (fun a b => b.size_b < a.size_b)
        (sortEntries (parse_lsof lines min_bytes))) := by
  refine ⟨sortEntries_pairwise _, sortEntries_filter v _, fun hdist => ?_⟩
  have hdist2 : List.Pairwise (fun a b : Entry => a.size_b ≠ b.size_b)
      (sortEntries (parse_lsof lines min_bytes)) := by
    refine ((sortEntries_perm _).pairwise_iff ?_).mpr hdist
    intro a b hab
    exact hab.symm
  have := (sortEntries_pairwise (parse_lsof lines min_bytes)).and hdist2
  exact this.imp (fun hab => lt_of_le_of_ne hab.1 (Ne.symm hab.2))

/-- Witness for C4: on a concrete listing with two retained rows of
distinct sizes the rendered order is strictly descending and nonempty. -/
theorem c4_witness :
    List.Pairwise (fun a b : Entry => b.size_b < a.size_b)
      (sortEntries (parse_lsof [hdr0, row0, row1] 0)) ∧
    sortEntries (parse_lsof [hdr0, row0, row1] 0) ≠ [] := by
  constructor
  · exact (c4_sort_desc_stable [hdr0, row0, row1] 0 0).2.2 (by decide)
  · decide

/-! ## Bounds on the formatter (C8) -/

/-- Whenever the loop stops before the fallthrough unit `"Y"`, the exit
guard held: the remaining magnitude is below 1024. -/
lemma sizeofLoop_bound (n : ℤ) (k : ℕ) (us : List String)
    (h : (sizeofLoop n k us).2 ≠ "Y") :
    |n| < 1024 ^ ((sizeofLoop n k us).1 + 1) := by
  induction us generalizing k with
  | nil => exact absurd rfl h
  | cons u rest ih =>
    by_cases hc : |n| < 1024 ^ (k + 1)
    · simp only [sizeofLoop, if_pos hc] at h ⊢
      exact hc
    · simp only [sizeofLoop, if_neg hc] at h ⊢
      exact ih (k + 1) h

/-- Round-half-even never exceeds the floor by more than one. -/
lemma rheN_le (a b : ℕ) : rheN a b ≤ a / b + 1 := by
  unfold rheN
  dsimp only
  split_ifs <;> simp

/-- C8 counterexample.  At input 1048525 the loop stops at unit `"K"`
(not the largest unit), yet the rendered numeric part is exactly 1024:
`sizeof_fmt 1048525 = "1024.0KB"`.  The claim that the numeric part is
below 1024 whenever the largest unit has not been reached is false. -/
theorem c8_counterexample :
    (sizeofLoop 1048525 0 fmtUnits).2 = "K" ∧
    ¬((rheN (10 * (1048525 : ℤ).toNat)
        (1024 ^ (sizeofLoop (1048525 : ℤ) 0 fmtUnits).1) : ℚ) / 10 < 1024) ∧
    sizeof_fmt 1048525 = "1024.0KB" := by
  refine ⟨by decide, ?_, by decide⟩
  rw [show (sizeofLoop (1048525 : ℤ) 0 fmtUnits).1 = 1 from by decide]
  rw [show rheN (10 * (1048525 : ℤ).toNat) (1024 ^ 1) = 10240 from by decide]
  norm_num

/-- C8 amended.  For every nonnegative byte count, unless the loop falls
through to the largest unit `"Y"`, the pre-rounding magnitude
`n / 1024 ^ k` is strictly below 1024 and the rendered (rounded) numeric
part is at most 1024.0 — it can reach exactly 1024.0 by rounding, as the
counterexample shows, but never exceed it; and `sizeof_fmt 0 = "0.0B"`. -/
theorem c8_value_bounded (n : ℤ) (hn : 0 ≤ n) :
    ((sizeofLoop n 0 fmtUnits).2 ≠ "Y" →
      (n : ℚ) / 1024 ^ (sizeofLoop n 0 fmtUnits).1 < 1024 ∧
      (rheN (10 * n.toNat) (1024 ^ (sizeofLoop n 0 fmtUnits).1) : ℚ) / 10 ≤ 1024) ∧
    sizeof_fmt 0 = "0.0B" := by
  refine ⟨fun h => ?_, by decide⟩
  have hb := sizeofLoop_bound n 0 fmtUnits h
  set k := (sizeofLoop n 0 fmtUnits).1 with hk
  have hn2 : n < 1024 ^ (k + 1) := by
    rwa [abs_of_nonneg hn] at hb
  have hm : n.toNat < 1024 * 1024 ^ k := by
    have h1 : (n.toNat : ℤ) = n := Int.toNat_of_nonneg hn
    have h2 : ((1024 : ℤ) ^ (k + 1)) = 1024 * 1024 ^ k := by ring
    have h3 : (n.toNat : ℤ) < 1024 * 1024 ^ k := by rw [h1]; rw [h2] at hn2; exact hn2
    exact_mod_cast h3
  constructor
  · rw [div_lt_iff₀ (by positivity)]
    have : (n : ℚ) < 1024 ^ (k + 1) := by exact_mod_cast hn2
    calc (n : ℚ) < 1024 ^ (k + 1) := this
    _ = 1024 * 1024 ^ k := by ring
  · have hbpos : 0 < 1024 ^ k := Nat.pos_pow_of_pos k (by omega)
    have h1 : 10 * n.toNat / 1024 ^ k < 10240 := by
      rw [Nat.div_lt_iff_lt_mul hbpos]
      omega
    have h2 : rheN (10 * n.toNat) (1024 ^ k) ≤ 10 * n.toNat / 1024 ^ k + 1 :=
      rheN_le _ _
    have h3 : rheN (10 * n.toNat) (1024 ^ k) ≤ 10240 := by omega
    rw [div_le_iff₀ (by norm_num)]
    calc (rheN (10 * n.toNat) (1024 ^ k) : ℚ) ≤ 10240 := by exact_mod_cast h3
    _ = 1024 * 10 := by norm_num

/-- Witness for C8: the bound instantiated at a concrete input whose loop
stops at `"K"`, with every hypothesis discharged. -/
theorem c8_witness :
    (1048524 : ℚ) / 1024 ^ (sizeofLoop (1048524 : ℤ) 0 fmtUnits).1 < 1024 ∧
    sizeof_fmt 1048524 = "1023.9KB" := by
  constructor
  · exact ((c8_value_bounded 1048524 (by decide)).1 (by decide)).1
  · decide

/-! ## Exactness and truncation of `parse_size` (C2, C10) -/

/-- Unfolding of the exact-arithmetic abstraction on a successful scan
(recorded for reference; the claims below are settled against the
faithful double-precision model `parse_sizeF`). -/
lemma parse_size_of_scan (s : String) (m sc : ℕ) (u : Option Char)
    (h : sizeScan s = some ((m, sc), u)) :
    parse_size s = some (((m * factors u) / 10 ^ sc : ℕ) : ℤ) := by
  unfold parse_size
  rw [h]
  rfl

/-- Value of a double at a negative exponent. -/
lemma dyVal_neg (m2 d : ℕ) : dyVal m2 (-(d : ℤ)) = (m2 : ℚ) / 2 ^ d := by
  unfold dyVal
  rw [zpow_neg, zpow_natCast, div_eq_mul_inv]

/-- Truncation toward zero of a nonnegative double: the result is the
unique integer `v` with `v ≤ value < v + 1`. -/
lemma truncDyadic_bounds (m2 : ℕ) (e : ℤ) :
    0 ≤ truncDyadic m2 e ∧ ((truncDyadic m2 e : ℤ) : ℚ) ≤ dyVal m2 e ∧
      dyVal m2 e < ((truncDyadic m2 e : ℤ) : ℚ) + 1 := by
  unfold truncDyadic
  split
  · rename_i he
    have h2e : (2 : ℚ) ^ e = (2 : ℚ) ^ e.toNat := by
      rw [← zpow_natCast, Int.toNat_of_nonneg he]
    have hv : dyVal m2 e = ((m2 * 2 ^ e.toNat : ℕ) : ℚ) := by
      unfold dyVal
      rw [h2e]
      push_cast
      ring
    refine ⟨by positivity, ?_, ?_⟩
    · rw [hv]
      norm_num
    · rw [hv]
      norm_num
  · rename_i he
    have h2e : (2 : ℚ) ^ e = ((2 : ℚ) ^ (-e).toNat)⁻¹ := by
      rw [← zpow_natCast, ← zpow_neg]
      congr 1
      omega
    have hv : dyVal m2 e = (m2 : ℚ) / 2 ^ (-e).toNat := by
      unfold dyVal
      rw [h2e, div_eq_mul_inv]
    have hbpos : (0 : ℚ) < 2 ^ (-e).toNat := by positivity
    refine ⟨by positivity, ?_, ?_⟩
    · rw [hv, le_div_iff₀ hbpos]
      have hq : (m2 / 2 ^ (-e).toNat) * 2 ^ (-e).toNat ≤ m2 := Nat.div_mul_le_self _ _
      exact_mod_cast hq
    · rw [hv, div_lt_iff₀ hbpos]
      have hbn : 0 < 2 ^ (-e).toNat := Nat.pos_pow_of_pos _ (by omega)
      have hq : m2 < (m2 / 2 ^ (-e).toNat + 1) * 2 ^ (-e).toNat := by
        conv_lhs => rw [← Nat.div_add_mod m2 (2 ^ (-e).toNat)]
        have hr : m2 % 2 ^ (-e).toNat < 2 ^ (-e).toNat := Nat.mod_lt _ hbn
        calc 2 ^ (-e).toNat * (m2 / 2 ^ (-e).toNat) + m2 % 2 ^ (-e).toNat
            < 2 ^ (-e).toNat * (m2 / 2 ^ (-e).toNat) + 2 ^ (-e).toNat :=
              Nat.add_lt_add_left hr _
          _ = (m2 / 2 ^ (-e).toNat + 1) * 2 ^ (-e).toNat := by ring
      push_cast
      exact_mod_cast hq

/-- Truncation of a double whose value is the integer `k` returns `k`. -/
lemma truncDyadic_of_int (m2 : ℕ) (e : ℤ) (k : ℤ) (h : dyVal m2 e = (k : ℚ)) :
    truncDyadic m2 e = k := by
  obtain ⟨h0, h1, h2⟩ := truncDyadic_bounds m2 e
  rw [h] at h1 h2
  have hle : truncDyadic m2 e ≤ k := by exact_mod_cast h1
  have hlt : k < truncDyadic m2 e + 1 := by exact_mod_cast h2
  omega

/-- C10 counterexample.  The in-grammar string `"0.99999999999999995"` has
exact value below 1, so the integer part of `number × 1024 ^ 0` is 0; but
`float()` rounds the literal up to 1.0 and the program returns 1.
`parse_size` therefore does not always return the integer part of
`number × 1024 ^ power`. -/
theorem c10_counterexample :
    sizeScan "0.99999999999999995" = some ((99999999999999995, 17), none) ∧
    parse_sizeF "0.99999999999999995" = .ok 1 ∧
    (0 : ℚ) ≤ numVal 99999999999999995 17 * (factors (none : Option Char) : ℚ) ∧
    numVal 99999999999999995 17 * (factors (none : Option Char) : ℚ) < 1 ∧
    (1 : ℤ) ≠ 0 := by
    refine ⟨by decide, by decide, ?_, ?_, by decide⟩
    · rw [show factors (none : Option Char) = 1 from rfl]
      unfold numVal
      positivity
    · rw [show factors (none : Option Char) = 1 from rfl]
      unfold numVal
      norm_num

/-- C10 amended.  On every accepted size string whose double computation
stays finite, the returned value is the truncation toward zero of the
double-precision value actually computed for `number × 1024 ^ power`: the
unique nonnegative integer `v` with `v ≤ value < v + 1`.  (When the
literal needs more than 53 significant bits, that double value can differ
from the exact product — see the counterexample — but the final `int()`
conversion never rounds.) -/
theorem c10_truncates_double (s : String) (m sc : ℕ) (u : Option Char)
    (m2 : ℕ) (e : ℤ)
    (hscan : sizeScan s = some ((m, sc), u))
    (hprod : prodFloat m sc (factorExp u) = some (m2, e)) :
    ∃ v : ℤ, parse_sizeF s = .ok v ∧ 0 ≤ v ∧
      (v : ℚ) ≤ dyVal m2 e ∧ dyVal m2 e < (v : ℚ) + 1 := by
  obtain ⟨h0, h1, h2⟩ := truncDyadic_bounds m2 e
  refine ⟨truncDyadic m2 e, ?_, h0, h1, h2⟩
  unfold parse_sizeF
  rw [hscan]
  dsimp only
  rw [hprod]

/-- Witness for C10: the double of `0.1K` is `7205759403792794 * 2 ^ -46`
and the program truncates it to 102; `1.5` truncates to 1. -/
theorem c10_witness :
    (∃ v : ℤ, parse_sizeF "0.1K" = .ok v ∧ 0 ≤ v ∧
      (v : ℚ) ≤ dyVal 7205759403792794 (-46) ∧
      dyVal 7205759403792794 (-46) < (v : ℚ) + 1) ∧
    parse_sizeF "0.1K" = .ok 102 ∧ parse_sizeF "1.5" = .ok 1 :=
  ⟨c10_truncates_double "0.1K" 1 1 (some 'K') 7205759403792794 (-46)
      (by decide) (by decide),
   by decide, by decide⟩

/-- C2 counterexample.  Two failures of "returns the exact byte count
number × 1024 ^ power": the grammar string `"1.5"` has exact product 3/2,
not an integer, and the code returns 1; and `"9007199254740993"` has the
integral exact product `2 ^ 53 + 1`, yet `float()` rounds the literal to
`2 ^ 53` (ties to even at 53 bits) and the code returns 9007199254740992. -/
theorem c2_counterexample :
    (sizeScan "1.5" = some ((15, 1), none) ∧ parse_sizeF "1.5" = .ok 1 ∧
      numVal 15 1 * (factors (none : Option Char) : ℚ) = 3 / 2 ∧
      ((1 : ℤ) : ℚ) ≠ 3 / 2) ∧
    (sizeScan "9007199254740993" = some ((9007199254740993, 0), none) ∧
      parse_sizeF "9007199254740993" = .ok 9007199254740992 ∧
      numVal 9007199254740993 0 * (factors (none : Option Char) : ℚ) =
        9007199254740993 ∧
      (9007199254740992 : ℤ) ≠ 9007199254740993) := by
  refine ⟨⟨by decide, by decide, ?_, by norm_num⟩,
    ⟨by decide, by decide, ?_, by decide⟩⟩
  · rw [show factors (none : Option Char) = 1 from rfl]
    unfold numVal
    norm_num
  · rw [show factors (none : Option Char) = 1 from rfl]
    unfold numVal
    norm_num

/-- C2 amended.  Whenever the double-precision computation is exact — the
double of the literal times the unit factor equals the exact rational
product `number × 1024 ^ power` — and that product is an integer `k`,
`parse_size` returns exactly `k`; in particular `parse_size "1K" = 1024`,
`parse_size "2.5G" = 2684354560` and `parse_size "123" = 123`.  (The
counterexample shows both restrictions are necessary: non-integral
products are truncated, and a literal needing more than 53 significant
bits is rounded before the multiplication.) -/
theorem c2_exact_on_exact_products (s : String) (m sc : ℕ) (u : Option Char)
    (m2 : ℕ) (e : ℤ) (k : ℤ)
    (hscan : sizeScan s = some ((m, sc), u))
    (hprod : prodFloat m sc (factorExp u) = some (m2, e))
    (hexact : dyVal m2 e = numVal m sc * (factors u : ℚ))
    (hk : numVal m sc * (factors u : ℚ) = (k : ℚ)) :
    parse_sizeF s = .ok k := by
  unfold parse_sizeF
  rw [hscan]
  dsimp only
  rw [hprod]
  dsimp only
  rw [truncDyadic_of_int m2 e k (by rw [hexact, hk])]

/-- Witness for C2 (amended): the three specified examples, with the
exactness of each double computation discharged concretely. -/
theorem c2_witness :
    parse_sizeF "1K" = .ok 1024 ∧ parse_sizeF "2.5G" = .ok 2684354560 ∧
    parse_sizeF "123" = .ok 123 := by
  refine ⟨?_, ?_, ?_⟩
  · refine c2_exact_on_exact_products "1K" 1 0 (some 'K')
      4503599627370496 (-42) 1024 (by decide) (by decide) ?_ ?_
    · rw [show ((-42 : ℤ)) = -((42 : ℕ) : ℤ) from by norm_num, dyVal_neg,
        show factors (some 'K') = 1024 from by decide]
      unfold numVal
      norm_num
    · rw [show factors (some 'K') = 1024 from by decide]
      unfold numVal
      norm_num
  · refine c2_exact_on_exact_products "2.5G" 25 1 (some 'G')
      5629499534213120 (-21) 2684354560 (by decide) (by decide) ?_ ?_
    · rw [show ((-21 : ℤ)) = -((21 : ℕ) : ℤ) from by norm_num, dyVal_neg,
        show factors (some 'G') = 1073741824 from by decide]
      unfold numVal
      norm_num
    · rw [show factors (some 'G') = 1073741824 from by decide]
      unfold numVal
      norm_num
  · refine c2_exact_on_exact_products "123" 123 0 none
      8655355533852672 (-46) 123 (by decide) (by decide) ?_ ?_
    · rw [show ((-46 : ℤ)) = -((46 : ℕ) : ℤ) from by norm_num, dyVal_neg,
        show factors (none : Option Char) = 1 from rfl]
      unfold numVal
      norm_num
    · rw [show factors (none : Option Char) = 1 from rfl]
      unfold numVal
      norm_num

/-! ## End-to-end scenarios (C5, C7, C9) -/

/-- C5 counterexample.  On the specified scenario — a listing whose single
data row has link-count 0, the deleted marker and size `600 * 1024 ^ 3`,
with threshold `"500G"` — the program emits exactly one data row, but its
SIZE column reads `"600.0GB"` (with the suffix `"B"` appended by
`sizeof_fmt`), not `"600.0G"` as claimed. -/
theorem c5_counterexample :
    (mainRun [hdr0, row0] "/data" "500G").stdout.drop 1 =
      ["600.0GB\tjava\t1234\troot\t5u\tREG\t8,1\t0\t131072\t/tmp/big.log (deleted)"] ∧
    firstField
      "600.0GB\tjava\t1234\troot\t5u\tREG\t8,1\t0\t131072\t/tmp/big.log (deleted)" =
      "600.0GB" ∧
    "600.0GB" ≠ "600.0G" := by
  refine ⟨by decide, by decide, by decide⟩

/-- C5 amended.  In the specified scenario the program emits the header
plus exactly one data row, and that row's SIZE column reads `"600.0GB"`. -/
theorem c5_single_row_600gb :
    (mainRun [hdr0, row0] "/data" "500G").stdout.length = 2 ∧
    (mainRun [hdr0, row0] "/data" "500G").stdout.head? = some hdrLine ∧
    ((mainRun [hdr0, row0] "/data" "500G").stdout.drop 1).map firstField = ["600.0GB"] ∧
    (mainRun [hdr0, row0] "/data" "500G").exitCode = 0 := by
  refine ⟨by decide, by decide, by decide, by decide⟩

/-- C7.  Whenever the filter retains no records, the program prints the
informational message on the error stream, writes nothing to standard
output, and exits 0. -/
theorem c7_empty_result (lines : List String) (path minsize : String) (min_bytes : ℤ)
    (hp : parse_size minsize = some min_bytes)
    (he : parse_lsof lines min_bytes = []) :
    (mainRun lines path minsize).exitCode = 0 ∧
    (mainRun lines path minsize).stdout = [] ∧
    emptyMsg path minsize ∈ (mainRun lines path minsize).errOut := by
  have hrun : mainRun lines path minsize = ⟨[], [emptyMsg path minsize], 0⟩ := by
    unfold mainRun
    rw [hp]
    dsimp only
    rw [he]
  rw [hrun]
  exact ⟨rfl, rfl, List.mem_singleton.mpr rfl⟩

/-- Witness for C7: a listing with only a header retains nothing. -/
theorem c7_witness :
    (mainRun [hdr0] "/data" "500G").exitCode = 0 ∧
    (mainRun [hdr0] "/data" "500G").stdout = [] ∧
    emptyMsg "/data" "500G" ∈ (mainRun [hdr0] "/data" "500G").errOut :=
  c7_empty_result [hdr0] "/data" "500G" 536870912000 (by decide) (by decide)

/-- C9.  When no records are retained, standard output is completely
empty — in particular the header line is omitted — and the header line
appears (as the first output line) if and only if at least one record is
reported. -/
theorem c9_header_iff_nonempty (lines : List String) (path minsize : String)
    (min_bytes : ℤ) (hp : parse_size minsize = some min_bytes) :
    (parse_lsof lines min_bytes = [] → (mainRun lines path minsize).stdout = []) ∧
    ((mainRun lines path minsize).stdout.head? = some hdrLine ↔
      parse_lsof lines min_bytes ≠ []) := by
  unfold mainRun
  rw [hp]
  dsimp only
  cases hel : parse_lsof lines min_bytes with
  | nil => simp
  | cons e es => simp

/-- Witness for C9: instantiated on an empty and on a nonempty outcome. -/
theorem c9_witness :
    (mainRun [hdr0] "/data" "500G").stdout = [] ∧
    ¬((mainRun [hdr0] "/data" "500G").stdout.head? = some hdrLine) ∧
    (mainRun [hdr0, row0] "/data" "500G").stdout.head? = some hdrLine := by
  refine ⟨?_, ?_, ?_⟩
  · exact (c9_header_iff_nonempty [hdr0] "/data" "500G" 536870912000 (by decide)).1
      (by decide)
  · intro hcon
    exact (c9_header_iff_nonempty [hdr0] "/data" "500G" 536870912000
      (by decide)).2.mp hcon (by decide)
  · exact (c9_header_iff_nonempty [hdr0, row0] "/data" "500G" 536870912000
      (by decide)).2.mpr (by decide)

/-! ## The accepted grammar of `parse_size` (C3) -/

/-- C3 counterexample.  The claim's grammar makes the number optional, so
`"K"` belongs to it; but the program rejects `"K"` with the
`InvalidSizeFormat` error (the regex requires at least one digit),
refuting "accepts exactly the strings of the grammar". -/
theorem c3_counterexample :
    claimSizeGrammar "K" = true ∧ parse_sizeF "K" = .invalid :=
  ⟨by decide, by decide⟩

/-- A unit letter is one of the eight characters of the class. -/
lemma isUnitChar_elim (c : Char) (h : isUnitChar c = true) :
    c = 'K' ∨ c = 'M' ∨ c = 'G' ∨ c = 'T' ∨ c = 'P' ∨ c = 'E' ∨ c = 'Z' ∨ c = 'Y' := by
  have hm : c ∈ ['K', 'M', 'G', 'T', 'P', 'E', 'Z', 'Y'] := by
    simpa [isUnitChar] using h
  simpa using hm

lemma isUnitChar_not_digit (c : Char) (h : isUnitChar c = true) : c.isDigit = false := by
  rcases isUnitChar_elim c h with h | h | h | h | h | h | h | h <;> subst h <;> decide

lemma isUnitChar_not_space (c : Char) (h : isUnitChar c = true) : isPySpace c = false := by
  rcases isUnitChar_elim c h with h | h | h | h | h | h | h | h <;> subst h <;> decide

lemma isUnitChar_not_dot (c : Char) (h : isUnitChar c = true) : c ≠ '.' := by
  rcases isUnitChar_elim c h with h | h | h | h | h | h | h | h <;> subst h <;> decide

/-- A whitespace character is one of the six of the class. -/
lemma isPySpace_elim (c : Char) (h : isPySpace c = true) :
    c = ' ' ∨ c = '\t' ∨ c = '\n' ∨ c = '\x0b' ∨ c = '\x0c' ∨ c = '\r' := by
  have h2 := h
  simp only [isPySpace, Bool.or_eq_true, decide_eq_true_eq] at h2
  tauto

lemma isPySpace_not_digit (c : Char) (h : isPySpace c = true) : c.isDigit = false := by
  rcases isPySpace_elim c h with h | h | h | h | h | h <;> subst h <;> decide

lemma isPySpace_not_dot (c : Char) (h : isPySpace c = true) : c ≠ '.' := by
  rcases isPySpace_elim c h with h | h | h | h | h | h <;> subst h <;> decide

/-- Fact: `takeWhile` stops immediately when the head fails the predicate. -/
lemma takeWhile_nil_of_head {p : Char → Bool} (l : List Char)
    (h : ∀ c, l.head? = some c → p c = false) : l.takeWhile p = [] := by
  cases l with
  | nil => rfl
  | cons c t => exact List.takeWhile_cons_of_neg (by simp [h c rfl])

/-- Fact: `dropWhile` keeps the whole list when the head fails the predicate. -/
lemma dropWhile_self_of_head {p : Char → Bool} (l : List Char)
    (h : ∀ c, l.head? = some c → p c = false) : l.dropWhile p = l := by
  cases l with
  | nil => rfl
  | cons c t => exact List.dropWhile_cons_of_neg (by simp [h c rfl])

/-- The number scanner accepts a digit block, an optional fraction, and
stops exactly at a remainder that starts with neither digit nor dot. -/
lemma sizeNumScan_app (d1 fr rest : List Char) (hd1 : d1 ≠ [])
    (hdig : ∀ c ∈ d1, c.isDigit = true)
    (hfr : fr = [] ∨ ∃ d2, fr = '.' :: d2 ∧ d2 ≠ [] ∧ (∀ c ∈ d2, c.isDigit = true))
    (hrest : ∀ c, rest.head? = some c → (c.isDigit = false ∧ c ≠ '.')) :
    ∃ m sc, sizeNumScan (d1 ++ (fr ++ rest)) = some ((m, sc), rest) := by
  have hne : d1.isEmpty = false := by
    cases d1 with
    | nil => exact absurd rfl hd1
    | cons a t => rfl
  rcases hfr with hfr | ⟨d2, hfr, hd2, hdig2⟩
  · subst hfr
    rw [List.nil_append]
    refine ⟨digitsToNat d1, 0, ?_⟩
    unfold sizeNumScan
    rw [List.takeWhile_append_of_pos hdig, List.dropWhile_append_of_pos hdig,
      takeWhile_nil_of_head rest (fun c hc => (hrest c hc).1),
      dropWhile_self_of_head rest (fun c hc => (hrest c hc).1),
      List.append_nil]
    rw [if_neg (by simp [hne])]
    cases rest with
    | nil => rfl
    | cons c t =>
      split
      · rename_i r2 heq
        injection heq with h1 h2
        exact absurd h1 (hrest c rfl).2
      · rfl
  · subst hfr
    refine ⟨digitsToNat (d1 ++ d2), d2.length, ?_⟩
    have harg : ('.' :: d2) ++ rest = '.' :: (d2 ++ rest) := rfl
    rw [harg]
    unfold sizeNumScan
    rw [List.takeWhile_append_of_pos hdig, List.dropWhile_append_of_pos hdig,
      List.takeWhile_cons_of_neg (by decide), List.dropWhile_cons_of_neg (by decide),
      List.append_nil]
    rw [if_neg (by simp [hne])]
    split
    · rename_i r2 heq
      injection heq with h1 h2
      subst h2
      rw [List.takeWhile_append_of_pos hdig2,
        takeWhile_nil_of_head rest (fun c hc => (hrest c hc).1), List.append_nil,
        List.dropWhile_append_of_pos hdig2,
        dropWhile_self_of_head rest (fun c hc => (hrest c hc).1)]
      have hne2 : (d2.isEmpty) = false := by
        cases d2 with
        | nil => exact absurd rfl hd2
        | cons a t => rfl
      rw [if_neg (by simp [hne2])]
    · rename_i hnet
      exact absurd rfl (hnet (d2 ++ rest))

/-- The regex tail accepts whitespace, an optional unit, an optional B. -/
lemma sizeTail_app (w un bs : List Char)
    (hw : ∀ c ∈ w, isPySpace c = true)
    (hun : un = [] ∨ ∃ c, un = [c] ∧ isUnitChar c = true)
    (hbs : bs = [] ∨ bs = ['B']) :
    ∃ uc, sizeTail (w ++ (un ++ bs)) = some uc := by
  have hdw : (w ++ (un ++ bs)).dropWhile isPySpace = un ++ bs := by
    rw [List.dropWhile_append_of_pos hw]
    apply dropWhile_self_of_head
    intro c hc
    rcases hun with hun | ⟨cu, hun, hcu⟩
    · subst hun
      rcases hbs with hbs | hbs
      · subst hbs
        simp at hc
      · subst hbs
        simp at hc
        subst hc
        decide
    · subst hun
      simp at hc
      subst hc
      exact isUnitChar_not_space _ hcu
  unfold sizeTail
  rw [hdw]
  rcases hun with hun | ⟨cu, hun, hcu⟩ <;> subst hun
  · rcases hbs with hbs | hbs <;> subst hbs
    · exact ⟨none, rfl⟩
    · exact ⟨none, by decide⟩
  · refine ⟨some cu, ?_⟩
    show (if isUnitChar cu then if sizeBEnd bs then some (some cu) else none
          else if sizeBEnd (cu :: bs) then some none else none) = some (some cu)
    rw [if_pos hcu]
    rcases hbs with hbs | hbs <;> subst hbs
    · rfl
    · rfl

/-- Forward decomposition of a successful number scan. -/
lemma sizeNumScan_decomp (l : List Char) (m sc : ℕ) (r : List Char)
    (h : sizeNumScan l = some ((m, sc), r)) :
    ∃ d1 fr, l = d1 ++ (fr ++ r) ∧ d1 ≠ [] ∧ (∀ c ∈ d1, c.isDigit = true) ∧
      (fr = [] ∨ ∃ d2, fr = '.' :: d2 ∧ d2 ≠ [] ∧ (∀ c ∈ d2, c.isDigit = true)) := by
  unfold sizeNumScan at h
  split at h
  · exact absurd h (by simp)
  · rename_i hne1
    have hd1ne : l.takeWhile Char.isDigit ≠ [] := by
      intro hnil
      rw [hnil] at hne1
      exact hne1 rfl
    split at h
    · rename_i r2 heq
      split at h
      · exact absurd h (by simp)
      · rename_i hne2
        have hd2ne : r2.takeWhile Char.isDigit ≠ [] := by
          intro hnil
          rw [hnil] at hne2
          exact hne2 rfl
        simp only [Option.some.injEq, Prod.mk.injEq] at h
        obtain ⟨⟨hm, hsc⟩, hr⟩ := h
        refine ⟨l.takeWhile Char.isDigit, '.' :: r2.takeWhile Char.isDigit, ?_,
          hd1ne, fun c hc => List.mem_takeWhile_imp hc,
          Or.inr ⟨r2.takeWhile Char.isDigit, rfl, hd2ne,
            fun c hc => List.mem_takeWhile_imp hc⟩⟩
        conv_lhs => rw [← List.takeWhile_append_dropWhile (p := Char.isDigit) (l := l)]
        rw [heq, ← hr, List.cons_append, List.takeWhile_append_dropWhile]
    · simp only [Option.some.injEq, Prod.mk.injEq] at h
      obtain ⟨⟨hm, hsc⟩, hr⟩ := h
      refine ⟨l.takeWhile Char.isDigit, [], ?_, hd1ne,
        fun c hc => List.mem_takeWhile_imp hc, Or.inl rfl⟩
      rw [List.nil_append, ← hr, List.takeWhile_append_dropWhile]

/-- Forward decomposition of a successful tail scan. -/
lemma sizeTail_decomp (r1 : List Char) (uc : Option Char) (h : sizeTail r1 = some uc) :
    ∃ w un bs, r1 = w ++ (un ++ bs) ∧ (∀ c ∈ w, isPySpace c = true) ∧
      (un = [] ∨ ∃ c, un = [c] ∧ isUnitChar c = true) ∧ (bs = [] ∨ bs = ['B']) := by
  have hsplit : r1 = r1.takeWhile isPySpace ++ r1.dropWhile isPySpace :=
    (List.takeWhile_append_dropWhile _ _).symm
  have hwAll : ∀ c ∈ r1.takeWhile isPySpace, isPySpace c = true :=
    fun c hc => List.mem_takeWhile_imp hc
  unfold sizeTail at h
  split at h
  · rename_i heq
    refine ⟨r1.takeWhile isPySpace, [], [], ?_, hwAll, Or.inl rfl, Or.inl rfl⟩
    conv_lhs => rw [hsplit]
    rw [heq]
    rfl
  · rename_i c r heq
    split at h
    · rename_i hcu
      split at h
      · rename_i hbe
        have hb : r = [] ∨ r = ['B'] := by
          simpa [sizeBEnd, List.isEmpty_iff] using hbe
        refine ⟨r1.takeWhile isPySpace, [c], r, ?_, hwAll, Or.inr ⟨c, rfl, hcu⟩, hb⟩
        conv_lhs => rw [hsplit]
        rw [heq]
        rfl
      · exact absurd h (by simp)
    · rename_i hcu
      split at h
      · rename_i hbe
        have hb : c :: r = [] ∨ c :: r = ['B'] := by
          simpa [sizeBEnd, List.isEmpty_iff] using hbe
        rcases hb with hb | hb
        · exact absurd hb (by simp)
        · injection hb with h1 h2
          subst h1
          subst h2
          refine ⟨r1.takeWhile isPySpace, [], ['B'], ?_, hwAll, Or.inl rfl, Or.inr rfl⟩
          conv_lhs => rw [hsplit]
          rw [heq]
          rfl
      · exact absurd h (by simp)

/-- Characterisation of the scanner: the regex matches exactly the
strings of the mandatory-number grammar. -/
lemma sizeScan_isSome_iff (s : String) :
    (sizeScan s).isSome = true ↔ SizeGrammar s := by
  refine ⟨fun h => ?_, fun hg => ?_⟩
  · unfold sizeScan at h
    cases hnum : sizeNumScan ((stripPy s.toList).map Char.toUpper) with
    | none =>
      rw [hnum] at h
      simp at h
    | some p =>
      obtain ⟨⟨m, sc⟩, r1⟩ := p
      rw [hnum] at h
      dsimp only at h
      cases htail : sizeTail r1 with
      | none =>
        rw [htail] at h
        simp at h
      | some uc =>
        obtain ⟨d1, fr, hl, hd1, hdig, hfr⟩ := sizeNumScan_decomp _ m sc r1 hnum
        obtain ⟨w, un, bs, hr1, hw, hun, hbs⟩ := sizeTail_decomp r1 uc htail
        refine ⟨d1, fr, w, un, bs, ?_, hd1, hdig, hfr, hw, hun, hbs⟩
        rw [hl, hr1]
        simp [List.append_assoc]
  · obtain ⟨d1, fr, w, un, bs, hu, hd1, hdig, hfr, hw, hun, hbs⟩ := hg
    have hrest : ∀ c, (w ++ (un ++ bs)).head? = some c →
        (c.isDigit = false ∧ c ≠ '.') := by
      intro c hc
      rcases w with _ | ⟨cw, tw⟩
      · rcases hun with hun | ⟨cu, hun, hcu⟩
        · subst hun
          rcases hbs with hbs | hbs
          · subst hbs
            simp at hc
          · subst hbs
            simp at hc
            subst hc
            exact ⟨by decide, by decide⟩
        · subst hun
          simp at hc
          subst hc
          exact ⟨isUnitChar_not_digit _ hcu, isUnitChar_not_dot _ hcu⟩
      · have hc2 : cw = c := by simpa using hc
        have hsp : isPySpace cw = true := hw cw (by simp)
        rw [← hc2]
        exact ⟨isPySpace_not_digit _ hsp, isPySpace_not_dot _ hsp⟩
    obtain ⟨m, sc, hnum⟩ := sizeNumScan_app d1 fr (w ++ (un ++ bs)) hd1 hdig hfr hrest
    obtain ⟨uc, htail⟩ := sizeTail_app w un bs hw hun hbs
    have hu2 : (stripPy s.toList).map Char.toUpper = d1 ++ (fr ++ (w ++ (un ++ bs))) := by
      rw [hu]
      simp [List.append_assoc]
    unfold sizeScan
    rw [hu2, hnum]
    dsimp only
    rw [htail]
    rfl

/-- Sanity check of `prodFloat` against `factors`: on every reachable
unit the integer factor is the power of two whose exponent the float
model shifts by. -/
lemma factors_eq_two_pow (u : Option Char)
    (hu : u = none ∨ ∃ c, u = some c ∧ isUnitChar c = true) :
    factors u = 2 ^ factorExp u := by
  rcases hu with hu | ⟨c, hu, hc⟩ <;> subst hu
  · rfl
  · rcases isUnitChar_elim c hc with h | h | h | h | h | h | h | h <;> subst h <;> decide

/-- C3 amended.  The program raises the `InvalidSizeFormat` error exactly
on the strings outside the grammar with a mandatory decimal number —
digits, an optional fraction, optional whitespace, an optional unit
letter `K/M/G/T/P/E/Z/Y`, an optional trailing `B`, case-insensitive,
surrounding whitespace stripped — such as `"abc"`, `"10X"` and `""`.  An
in-grammar string either returns a byte count or, when the
double-precision value of `number × 1024 ^ power` overflows to infinity
(at about `1.8e308`), crashes with an uncaught `OverflowError` rather
than raising `InvalidSizeFormat`: so acceptance is not exactly the
grammar, as the 401-digit in-grammar literal `bigLit` shows. -/
theorem c3_grammar_or_error (s : String) :
    (parse_sizeF s ≠ .invalid ↔ SizeGrammar s) ∧
    parse_sizeF "abc" = .invalid ∧ parse_sizeF "10X" = .invalid ∧
    parse_sizeF "" = .invalid ∧ parse_sizeF bigLit = .overflow := by
  refine ⟨⟨fun h => ?_, fun hg => ?_⟩, by decide, by decide, by decide, by decide⟩
  · cases hscan : sizeScan s with
    | none =>
      exfalso
      apply h
      unfold parse_sizeF
      rw [hscan]
    | some p =>
      refine (sizeScan_isSome_iff s).mp ?_
      rw [hscan]
      rfl
  · have hsome := (sizeScan_isSome_iff s).mpr hg
    cases hscan : sizeScan s with
    | none =>
      rw [hscan] at hsome
      simp at hsome
    | some p =>
      obtain ⟨⟨m, sc⟩, u⟩ := p
      unfold parse_sizeF
      rw [hscan]
      dsimp only
      cases hprod : prodFloat m sc (factorExp u) with
      | none => simp
      | some me =>
        obtain ⟨m2, e⟩ := me
        simp

end ListDeletedOpen
